/-
Verification of the polysemous-gloss annotation pipeline of the pensvm
repository (scripts/add_polysemous_glosses.py and scripts/add_gloss_notes.py).

The Python scripts are shallowly embedded below.  Python strings are modelled
as Lean `String` (a structure over `List Char` in this toolchain), with the
string-manipulation primitives the scripts use (split, join, strip, lower,
startswith, substring containment, removeprefix) re-implemented character by
character so that every theorem talks about the exact text transformation
performed by the source.  Python's `str.lower` is modelled as ASCII
lowercasing (all table data is lowercase ASCII apart from macron vowels,
which both functions leave unchanged), and `str.strip` strips the ASCII
whitespace characters recognised by `Char.isWhitespace`.  Python's stable
`list.sort(key=len)` is modelled with `List.insertionSort` on the
length-order relation, which performs the same stable reordering.

The convoluted `words_added` counting expression in `main` of
add_polysemous_glosses.py (whose result is discarded) is not modelled; the
document-level pass `annotateChapter` applies the per-block transformation
exactly as the loop in `main` does to each block.
-/
import Mathlib

namespace Pensvm

/-! ### Character-level string primitives (Python semantics) -/

/-- Python `s.startswith(p)`: `strStarts p s` is true when `p` is an initial
segment of `s`. -/
def strStarts : List Char → List Char → Bool
  | [], _ => true
  | _ :: _, [] => false
  | a :: ps, b :: ss => a == b && strStarts ps ss

/-- Python `p in s` (substring containment): true when some suffix of `s`
starts with `p`. -/
def hasSub (p : List Char) : List Char → Bool
  | [] => strStarts p []
  | c :: rest => strStarts p (c :: rest) || hasSub p rest

/-- Python `s.removeprefix(p)`. -/
def removePre (p s : List Char) : List Char :=
  if strStarts p s then s.drop p.length else s

/-- Python `s.endswith(p)`: checked on the reversed lists. -/
def endsW (p s : List Char) : Bool :=
  strStarts p.reverse s.reverse

/-- Python `s.strip()`: remove leading and trailing whitespace. -/
def stripChars (s : List Char) : List Char :=
  ((s.dropWhile Char.isWhitespace).reverse.dropWhile Char.isWhitespace).reverse

/-- Python `s.rstrip("!")`: remove trailing exclamation marks. -/
def rstripBang (s : List Char) : List Char :=
  (s.reverse.dropWhile (fun c => c == '!')).reverse

/-- Python `s.split(sep)` for a one-character separator: split at every
occurrence, keeping empty pieces. -/
def splitChar (sep : Char) : List Char → List (List Char)
  | [] => [[]]
  | c :: rest =>
    if c = sep then [] :: splitChar sep rest
    else
      match splitChar sep rest with
      | [] => [[c]]
      | f :: fs => (c :: f) :: fs

/-- Python `sep.join(pieces)` for a one-character separator. -/
def joinC (sep : Char) : List (List Char) → List Char
  | [] => []
  | [f] => f
  | f :: fs => f ++ sep :: joinC sep fs

/-! ### String-level wrappers -/

/-- Python `s.strip()` on `String`. -/
def pyStrip (s : String) : String :=
  String.mk (stripChars s.toList)

/-- Python `s.lower()` on `String` (ASCII case folding). -/
def pyLower (s : String) : String :=
  String.mk (s.toList.map Char.toLower)

/-- Python `s.split(sep)` on `String`, single-character separator. -/
def pySplit (sep : Char) (s : String) : List String :=
  (splitChar sep s.toList).map String.mk

/-- Python `sep.join(pieces)` on `String`, single-character separator. -/
def pyJoin (sep : Char) (pieces : List String) : String :=
  String.mk (joinC sep (pieces.map String.toList))

/-- Python `c in s` for a single character `c`. -/
def hasChar (c : Char) (s : String) : Bool :=
  s.toList.contains c

/-! ### add_polysemous_glosses.py : static tables -/

/-- The `POLYSEMOUS` dictionary: lemma → list of all real meanings. -/
def POLYSEMOUS : List (String × List String) :=
  [("capiō", ["catch", "catches", "seize", "take", "capture", "to catch", "to seize", "to take"]),
   ("faciō", ["make", "makes", "do", "does", "produce", "cause", "to make", "to do"]),
   ("moveō", ["move", "moves", "stir", "affect", "shake", "to move", "are moved", "is moved"]),
   ("agō", ["come on!", "do", "drive", "act", "lead", "to do", "to drive", "to act"]),
   ("videō", ["see", "sees", "perceive", "observe", "notice", "to see", "is seen", "to be seen"]),
   ("audiō", ["hear", "hears", "listen to", "obey", "to hear", "is heard", "to be heard", "listen!"]),
   ("habeō", ["have", "has", "hold", "possess", "consider", "to have", "to hold"]),
   ("pōnō", ["place", "put", "set", "lay down", "to place", "is placed", "to be placed"]),
   ("dūcō", ["lead", "is drawn", "draw", "guide", "bring", "to be led"]),
   ("quaerō", ["seek", "look for", "ask", "investigate", "to seek"]),
   ("vocō", ["call", "summon", "name", "invite", "to call", "to be called"]),
   ("portō", ["carry", "bring", "convey", "transport", "to carry", "is carried", "to be carried"]),
   ("emō", ["buy", "purchase", "acquire", "to buy", "to be bought"]),
   ("currō", ["run", "hasten", "rush", "race", "to run"]),
   ("cadō", ["fall", "drop", "collapse", "perish", "to fall"]),
   ("aspiciō", ["watch", "look at", "observe", "behold", "to look at"]),
   ("edō", ["eat", "consume", "devour", "to eat", "to be eaten"]),
   ("canō", ["sing", "chant", "recite", "play (music)", "to sing"]),
   ("occultō", ["hide", "conceal", "cover", "keep secret", "are hidden"]),
   ("sustineō", ["support", "hold up", "endure", "bear", "to support"]),
   ("intrō", ["enter", "go into", "penetrate", "begin"]),
   ("timeō", ["fear", "dread", "be afraid of", "worry about", "to fear"]),
   ("reperiō", ["find", "discover", "learn", "obtain", "to find", "to be found"]),
   ("aperiō", ["open", "uncover", "reveal", "disclose", "to open", "to be opened"]),
   ("teneō", ["hold", "keep", "grasp", "restrain", "to hold", "to be held"]),
   ("iubeō", ["order", "command", "bid", "direct", "to order"]),
   ("vīvō", ["live", "dwell", "survive", "endure", "to live"]),
   ("veniō", ["come", "arrive", "approach", "come!"]),
   ("exeō", ["go out", "leave", "depart", "emerge"]),
   ("accurrō", ["run up", "hurry to", "rush to", "to run up"]),
   ("rīdeō", ["laugh", "smile", "mock", "to laugh"]),
   ("lātrō", ["bark", "howl", "bay", "snarl"]),
   ("clāmō", ["shout", "cry out", "proclaim", "call out"]),
   ("interrogō", ["ask", "question", "inquire", "examine"]),
   ("ascendō", ["climb", "go up", "mount", "ascend", "to climb"]),
   ("lūdō", ["play", "to play", "sport", "mock", "trick"])]

/-- The `SKIP_LEMMAS` set: lemmas never annotated. -/
def SKIP_LEMMAS : List String :=
  ["sum", "possum", "spīrō", "natō", "ambulō", "volō", "numerō"]

/-- Minimum number of alternatives to show (besides the correct one). -/
def MIN_ALTS : Nat := 2

/-- Maximum number of alternatives kept. -/
def MAX_ALTS : Nat := 4

/-- Dictionary lookup on an association list, first (and only) key match, as
`POLYSEMOUS.get(lemma, ...)` behaves on a Python dict literal with distinct
keys. -/
def tblLookup (k : String) : List (String × List String) → Option (List String)
  | [] => none
  | (k', v) :: rest => if k = k' then some v else tblLookup k rest

/-! ### add_polysemous_glosses.py : normalize and pick_alternatives -/

/-- The `normalize` function: lowercase, strip, remove trailing `!`, strip,
`removeprefix("to ")` then `removeprefix("to be ")`, then drop a trailing
`es` or `s`. -/
def normalize (g : String) : String :=
  let g1 := stripChars (rstripBang (stripChars (g.toList.map Char.toLower)))
  let g2 := removePre "to be ".toList (removePre "to ".toList g1)
  let g3 :=
    if endsW "es".toList g2 then g2.take (g2.length - 2)
    else if endsW "s".toList g2 then g2.take (g2.length - 1)
    else g2
  String.mk g3

/-- The infinitive classification used in `pick_alternatives`:
`gloss.lower().startswith("to ")`. -/
def glossIsInf (g : String) : Bool :=
  strStarts "to ".toList (g.toList.map Char.toLower)

/-- The passive classification used in `pick_alternatives`:
`"is " in gloss.lower() or "are " in gloss.lower()`. -/
def glossIsPass (g : String) : Bool :=
  hasSub "is ".toList (g.toList.map Char.toLower) ||
    hasSub "are ".toList (g.toList.map Char.toLower)

/-- The filtering loop of `pick_alternatives`: walk the meanings, skip
normalized duplicates (`seen` plays the role of `seen_norms`) and candidates
whose infinitive/passive classification disagrees with the current gloss,
and collect the survivors in order. -/
def selectAlts (isInf isPass : Bool) (seen : List String) : List String → List String
  | [] => []
  | m :: ms =>
    if normalize m ∈ seen then selectAlts isInf isPass seen ms
    else if glossIsInf m ≠ isInf then selectAlts isInf isPass seen ms
    else if glossIsPass m ≠ isPass then selectAlts isInf isPass seen ms
    else m :: selectAlts isInf isPass (normalize m :: seen) ms

/-- Length order on strings, the key ordering of `alts.sort(key=lambda x: len(x))`. -/
def lenLE (a b : String) : Prop := a.length ≤ b.length

instance : DecidableRel lenLE := fun a b => Nat.decLe a.length b.length

instance : IsTotal String lenLE := ⟨fun a b => Nat.le_total a.length b.length⟩

instance : IsTrans String lenLE := ⟨fun _ _ _ => Nat.le_trans⟩

/-- The `pick_alternatives` function (`lemm` stands for the source's `lemma`
argument, which is a reserved word here). -/
def pick_alternatives (lemm current_gloss : String) : List String :=
  if lemm ∈ SKIP_LEMMAS then []
  else
    match tblLookup lemm POLYSEMOUS with
    | none => []
    | some meanings =>
      if meanings = [] then []
      else
        let alts := selectAlts (glossIsInf current_gloss) (glossIsPass current_gloss)
          [normalize current_gloss] meanings
        if alts.length < MIN_ALTS then []
        else (List.insertionSort lenLE alts).take MAX_ALTS

/-! ### add_polysemous_glosses.py : parse_csv and process_toon -/

/-- The loop body of `parse_csv`: `cur` is the accumulated current field and
`q` the `in_quotes` flag; quote characters toggle `q` and are kept, commas
outside quotes split, every other character is appended. -/
def parse_go : List Char → List Char → Bool → List (List Char)
  | [], cur, _ => [cur]
  | ch :: rest, cur, q =>
    if ch = '"' then parse_go rest (cur ++ [ch]) (!q)
    else if ch = ',' ∧ q = false then cur :: parse_go rest [] q
    else parse_go rest (cur ++ [ch]) q

/-- The `parse_csv` function: parse a CSV line handling quoted fields. -/
def parse_csv (line : String) : List String :=
  (parse_go line.toList [] false).map String.mk

/-- Leftmost match of the regex `\x7b([^\x7d]+)\x7d` (a brace-delimited
nonempty group), as `re.search` applies it to the header line: at each
position, a literal opening brace followed by a nonempty run of
non-closing-brace characters and a closing brace matches; otherwise scanning
resumes one character later. -/
def braceSearch : List Char → Option (List Char)
  | [] => none
  | c :: rest =>
    if c = '{' then
      let run := rest.takeWhile (fun ch => ch ≠ '}')
      if run ≠ [] ∧ rest.dropWhile (fun ch => ch ≠ '}') ≠ [] then some run
      else braceSearch rest
    else braceSearch rest

/-- Header analysis of `process_toon`: find the brace group, split it on
commas, and look up the positions of the declared fields `t`, `g`, `l`
(required — a `ValueError` from `fields.index` makes `process_toon` return
its input unchanged, modelled by `none`) and `p` (optional). -/
def headerIdx (header : String) : Option (Nat × Nat × Nat × Option Nat) :=
  match braceSearch header.toList with
  | none => none
  | some grp =>
    let fields := pySplit ',' (String.mk grp)
    match fields.findIdx? (· == "t"), fields.findIdx? (· == "g"),
        fields.findIdx? (· == "l") with
    | some t, some g, some l => some (t, g, l, fields.findIdx? (· == "p"))
    | _, _, _ => none

/-- The lemma of a row: `values[l_idx] if values[l_idx] else text` (the
surface text is used as lemma when the lemma field is empty). -/
def lemmOf (t_idx l_idx : Nat) (values : List String) : String :=
  if values.getD l_idx "" = "" then values.getD t_idx "" else values.getD l_idx ""

/-- The part-of-speech of a row:
`values[p_idx] if p_idx is not None and p_idx < len(values) else ""`. -/
def posOf (p_idx : Option Nat) (values : List String) : String :=
  match p_idx with
  | some pi => if pi < values.length then values.getD pi "" else ""
  | none => ""

/-- The per-row body of the `process_toon` loop.  Returns the emitted line
together with the flag recording whether this row received alternatives
(the contribution of the row to the `modified` flag).  The source's local
variables are inlined: `values` is `parse_csv line`, `text` is
`values.getD t_idx ""`, `gloss` is `values.getD g_idx ""`, `lemma` is
`lemmOf t_idx l_idx values` and `pos` is `posOf p_idx values`. -/
def processLine (t_idx g_idx l_idx : Nat) (p_idx : Option Nat) (line : String) :
    String × Bool :=
  if pyStrip line = "" then (line, false)
  else if (parse_csv line).length ≤ max t_idx (max g_idx l_idx) then (line, false)
  else if (parse_csv line).getD g_idx "" = "" ∨
      hasChar '|' ((parse_csv line).getD g_idx "") ∨
      pyStrip ((parse_csv line).getD t_idx "") = "" ∨
      (pyStrip ((parse_csv line).getD t_idx "")).length ≤ 1 then (line, false)
  else if posOf p_idx (parse_csv line) = "" ∨ posOf p_idx (parse_csv line) = "conj" ∨
      posOf p_idx (parse_csv line) = "prep" ∨ posOf p_idx (parse_csv line) = "num" then
    (line, false)
  else if pick_alternatives (lemmOf t_idx l_idx (parse_csv line))
      ((parse_csv line).getD g_idx "") = [] then (line, false)
  else
    (pyJoin ',' ((parse_csv line).set g_idx ((parse_csv line).getD g_idx "" ++ "|" ++
      pyJoin '|' (pick_alternatives (lemmOf t_idx l_idx (parse_csv line))
        ((parse_csv line).getD g_idx "")))), true)

/-- The `process_toon` function: process a TOON string and add pipe-separated
glosses to polysemous words. -/
def process_toon (toon_str : String) : String :=
  if toon_str = "" then toon_str
  else
    let lines := pySplit '\n' toon_str
    if lines.length < 2 then toon_str
    else
      let header := lines.headD ""
      match headerIdx header with
      | none => toon_str
      | some (t_idx, g_idx, l_idx, p_idx) =>
        let results := (lines.drop 1).map (processLine t_idx g_idx l_idx p_idx)
        if results.any (·.2) then pyJoin '\n' (header :: results.map (·.1))
        else toon_str

/-- Bool/Prop view of "no row of this payload receives alternatives": every
line after the header is emitted by `processLine` with a false modification
flag (vacuously true when the header yields no field indices). -/
def noRowModified (toon_str : String) : Bool :=
  match headerIdx ((pySplit '\n' toon_str).headD "") with
  | none => true
  | some (t_idx, g_idx, l_idx, p_idx) =>
    ((pySplit '\n' toon_str).drop 1).all
      (fun line => !(processLine t_idx g_idx l_idx p_idx line).2)

/-! ### add_gloss_notes.py : polysemy detection, note table, annotation loop -/

/-- The `get_poly_indices` function of add_gloss_notes.py: enumerate the
lines after the header (blank lines keep their index but yield nothing),
split each line naively on commas (`line.split(",")`, no quote handling),
and record `(idx, parts[0], parts[2].split("|")[0])` exactly when the line
has more than two naive fields and the third one contains `|`.  The Python
dict is modelled as the association list in insertion order. -/
def get_poly_indices (toon_str : String) : List (Nat × String × String) :=
  let lines := pySplit '\n' toon_str
  (lines.drop 1).enum.filterMap fun p =>
    if pyStrip p.2 = "" then none
    else
      let parts := pySplit ',' p.2
      if 2 < parts.length ∧ hasChar '|' (parts.getD 2 "") then
        some (p.1, parts.getD 0 "", (pySplit '|' (parts.getD 2 "")).headD "")
      else none

/-- The polysemy detector as the specification describes it: the gloss field
is located via the block's declared header schema, rows are decoded with the
quote-aware CSV parser, and a row is polysemous exactly when its gloss field
splits on `|` into more than one element, the headword being the row's text
field and the correct sense element 0.  This definition follows the spec's
words and exists to be compared with `get_poly_indices` above. -/
def get_poly_indices_spec (toon_str : String) : List (Nat × String × String) :=
  let lines := pySplit '\n' toon_str
  match headerIdx (lines.headD "") with
  | none => []
  | some (t_idx, g_idx, _, _) =>
    (lines.drop 1).enum.filterMap fun p =>
      if pyStrip p.2 = "" then none
      else
        let values := parse_csv p.2
        if g_idx < values.length ∧ 1 < (pySplit '|' (values.getD g_idx "")).length then
          some (p.1, values.getD t_idx "", (pySplit '|' (values.getD g_idx "")).headD "")
        else none

/-- The `EXPLANATIONS` dictionary of add_gloss_notes.py: context-aware
explanations keyed by `(word_text, correct_gloss)`. -/
def EXPLANATIONS : List ((String × String) × String) :=
  [(("capiunt", "catch"), "Predators hunting prey — they catch other animals"),
   (("edunt", "eat"), "After catching prey, the beasts eat them"),
   (("timent", "fear"), "Inhabitants dread lions because lions kill"),
   (("capit", "catches"), "The eagle hunts small birds, catching them"),
   (("edit", "eats"), "The eagle catches and then eats small birds"),
   (("habet", "has"), "Describing body parts — a bird has two wings"),
   (("habent", "have"), "Describing body parts that creatures possess"),
   (("movet", "moves"), "Physical motion — flapping wings or stepping feet"),
   (("moventur", "are moved"), "Passive: wings/feet are moved during flight or walking"),
   (("portat", "carries"), "Mercury conveys the gods\x27 commands to humans"),
   (("emit", "buys"), "A merchant buys and sells goods for trade"),
   (("facit", "makes"), "Describes earning money or producing footprints"),
   (("faciunt", "make"), "Birds build nests — they make them in trees"),
   (("aspicit", "watches"), "The dog gazes at birds flying among the trees"),
   (("vīvunt", "live"), "Fish dwell in water, animals dwell on land"),
   (("vīvit", "lives"), "A human lives as long as he breathes"),
   (("intrat", "enters"), "Air goes into the lungs during breathing"),
   (("exit", "exits"), "Air comes back out of the lungs"),
   (("exits", "goes out"), "Julius leaves the house into the garden"),
   (("tenet", "holds"), "Julia is holding the ball in her hands"),
   (("quaerunt", "seek"), "The boys search for nests in the trees"),
   (("Cape", "catch!"), "Julia tells Margarita to catch the thrown ball"),
   (("rīdet", "laughs"), "The happy girl laughs with joy"),
   (("canit", "sings"), "The girl produces a melody — she sings"),
   (("audiunt", "hear"), "The boys perceive the girl singing"),
   (("Audī", "listen!"), "Quintus tells Marcus to pay attention to Julia\x27s voice"),
   (("videt", "sees"), "Visual perception — the dog sees the bird above"),
   (("vident", "see"), "Marcus and Julia see that Quintus is alive"),
   (("capere", "to catch"), "The dog wants to catch the bird flying above"),
   (("lātrat", "barks"), "The angry dog makes its natural sound"),
   (("canunt", "sing"), "Birds produce song, unlike fish which have no voice"),
   (("occultant", "hide"), "Small birds conceal themselves among leaves from the eagle"),
   (("quaerit", "seeks"), "The eagle searches for food over the garden"),
   (("reperit", "finds"), "Marcus discovers a nest in the tree"),
   (("vocat", "calls"), "Marcus summons Quintus to come see the nest"),
   (("Venī", "come!"), "Marcus tells Quintus to approach the tree"),
   (("Accurrit", "runs up"), "Quintus hurries over to where Marcus is"),
   (("Age", "come on!"), "Marcus urges Quintus to act — climb the tree"),
   (("Ascende", "climb!"), "Marcus tells Quintus to go up into the tree"),
   (("ascendit", "climbs"), "Quintus physically goes up into the tree"),
   (("interrogat", "asks"), "Marcus poses a question about the eggs in the nest"),
   (("sustinet", "supports"), "The branch physically holds up the nest"),
   (("cadit", "falls"), "The branch breaks and drops to the ground"),
   (("Rīdētne", "does he laugh?"), "Asking whether Marcus laughs — no, he\x27s terrified"),
   (("movent", "move"), "Neither the boy nor chicks stir after the fall"),
   (("currit", "runs"), "Marcus runs to the house in terror"),
   (("clāmat", "shouts"), "Marcus cries out loudly for his father"),
   (("audit", "hears"), "Julius perceives the boy calling from the garden"),
   (("accurrit", "runs up"), "Julia hurries to where Quintus lies"),
   (("aperit", "opens"), "Quintus opens his eyes, showing he\x27s alive"),
   (("cadere", "to fall"), "Marcus sees Quintus falling from the tree"),
   (("facit", "does"), "Asking what Marcus does — his action, not making something"),
   (("exit", "goes out"), "Julius leaves the house to go into the garden"),
   (("agere", "to do"), "Listed as a 3rd conjugation infinitive example"),
   (("capere", "to seize"), "Listed as a 3rd conjugation infinitive example"),
   (("vīdē", "see"), "Imperative: directing the reader to look at chapter XI")]

/-- Lookup in the `EXPLANATIONS` dict by `(word, correct_gloss)` key. -/
def noteLookup (k : String × String) : List ((String × String) × String) → Option String
  | [] => none
  | (k', v) :: rest => if k = k' then some v else noteLookup k rest

/-! ### Document model and the two per-block passes -/

/-- A content block of the chapter document: JSON fields accessed by the
scripts.  `block.get("type")`, `block.get("style")` and `block.get("toon")`
may be absent, hence the `Option`; `glossNotes` is the mapping from
stringified row index to note, modelled as an association list in insertion
order (absent mapping = empty list). -/
structure Block where
  type : Option String
  style : Option String
  toon : Option String
  glossNotes : List (String × String)
  deriving DecidableEq, Repr

/-- The per-block step of the alternative-generation pass
(add_polysemous_glosses.py `main` loop): skip blocks whose type is not
`"text"`, blocks with a missing or empty payload, and `grammar-table`
styled blocks; otherwise replace the payload with `process_toon` of it when
that differs. -/
def annotateBlock (b : Block) : Block :=
  if b.type ≠ some "text" then b
  else
    match b.toon with
    | none => b
    | some t =>
      if t = "" then b
      else if b.style = some "grammar-table" then b
      else
        let nt := process_toon t
        if nt ≠ t then { b with toon := some nt } else b

/-- The alternative-generation pass over the whole chapter (pages, then
content blocks). -/
def annotateChapter (pages : List (List Block)) : List (List Block) :=
  pages.map (List.map annotateBlock)

/-- The per-block step of the note-attachment loop of add_gloss_notes.py:
skip blocks with a missing or empty payload and `grammar-table` styled
blocks (there is no type check in this script); find the polysemous rows;
collect the notes whose `(word, correct)` key appears in `EXPLANATIONS`; and
when at least one note was found, overwrite `glossNotes` with exactly the
collected mapping. -/
def notesBlock (b : Block) : Block :=
  match b.toon with
  | none => b
  | some t =>
    if t = "" then b
    else if b.style = some "grammar-table" then b
    else
      let polys := get_poly_indices t
      if polys = [] then b
      else
        let notes := polys.filterMap fun p =>
          (noteLookup (p.2.1, p.2.2) EXPLANATIONS).map fun note => (toString p.1, note)
        if notes ≠ [] then { b with glossNotes := notes } else b

/-- The note-attachment pass over the whole chapter. -/
def notesChapter (pages : List (List Block)) : List (List Block) :=
  pages.map (List.map notesBlock)

/-! ### Quote-parity invariants of the CSV scanner

These definitions are not part of the source; they name the invariants of
`parse_go` needed to prove that re-parsing a comma-rejoined field list
recovers it. -/

/-- Quote parity: the `in_quotes` state after scanning `f` from state `q`. -/
def parQ (f : List Char) (q : Bool) : Bool :=
  f.foldl (fun b ch => if ch = '"' then !b else b) q

/-- No top-level comma: scanning `f` from quote state `q` never meets a
comma outside quotes, i.e. `parse_go` passes over `f` without splitting. -/
def topOK : List Char → Bool → Bool
  | [], _ => true
  | ch :: rest, q =>
    if ch = '"' then topOK rest (!q)
    else if ch = ',' ∧ q = false then false
    else topOK rest q

/-- Well-formedness of a field list for comma-rejoining: every field but the
last has no top-level comma and even quote parity, and the last field has no
top-level comma.  `parse_go` always produces such a list, and rejoining such
a list with commas parses back to it. -/
def fieldsOK : List (List Char) → Bool
  | [] => true
  | [f] => topOK f false
  | f :: fs => topOK f false && !(parQ f false) && fieldsOK fs

/-! ### Basic string/list lemmas -/

theorem toList_mk (l : List Char) : (String.mk l).toList = l := rfl

theorem mk_toList (s : String) : String.mk s.toList = s := rfl

theorem toList_append (a b : String) : (a ++ b).toList = a.toList ++ b.toList := by
  cases a; cases b; rfl

theorem mk_eq_mk {a b : List Char} : String.mk a = String.mk b ↔ a = b := by
  constructor
  · intro h; injection h
  · intro h; rw [h]

theorem mk_eq_empty {l : List Char} : String.mk l = "" ↔ l = [] :=
  mk_eq_mk

theorem map_mk_toList (l : List (List Char)) :
    (l.map String.mk).map String.toList = l := by
  rw [List.map_map]
  exact List.map_id l

/-- `parse_go` never returns the empty list. -/
theorem parse_go_ne_nil (cs : List Char) (cur : List Char) (q : Bool) :
    parse_go cs cur q ≠ [] := by
  induction cs generalizing cur q with
  | nil => simp [parse_go]
  | cons ch rest ih =>
    simp only [parse_go]
    split
    · exact ih _ _
    · split
      · simp
      · exact ih _ _

theorem joinC_cons (c : Char) (a : List Char) {l : List (List Char)} (h : l ≠ []) :
    joinC c (a :: l) = a ++ c :: joinC c l := by
  cases l with
  | nil => exact absurd rfl h
  | cons f fs => rfl

/-- Rejoining the fields of `parse_go` with commas restores the scanned text
(prefixed by the pending accumulator). -/
theorem joinC_parse_go (cs : List Char) (cur : List Char) (q : Bool) :
    joinC ',' (parse_go cs cur q) = cur ++ cs := by
  induction cs generalizing cur q with
  | nil => simp [parse_go, joinC]
  | cons ch rest ih =>
    simp only [parse_go]
    split
    · rename_i hq
      rw [ih]
      simp [hq]
    · split
      · rename_i hcomma
        rw [joinC_cons _ _ (parse_go_ne_nil rest [] q), ih]
        simp [hcomma.1]
      · rw [ih]
        simp

theorem parQ_cons (ch : Char) (rest : List Char) (q : Bool) :
    parQ (ch :: rest) q = parQ rest (if ch = '"' then !q else q) := by
  by_cases h : ch = '"' <;> simp [parQ, h]

theorem parQ_append (a b : List Char) (q : Bool) :
    parQ (a ++ b) q = parQ b (parQ a q) := by
  simp [parQ, List.foldl_append]

theorem parQ_no_quote (s : List Char) (h : '"' ∉ s) (q : Bool) : parQ s q = q := by
  induction s generalizing q with
  | nil => rfl
  | cons ch rest ih =>
    have hch : ch ≠ '"' := by
      intro hc
      subst hc
      exact h (List.mem_cons_self _ _)
    rw [parQ_cons, if_neg hch]
    exact ih (fun hc => h (List.mem_cons_of_mem _ hc)) q

theorem topOK_cons (ch : Char) (rest : List Char) (q : Bool) :
    topOK (ch :: rest) q =
      (if ch = '"' then topOK rest (!q)
       else if ch = ',' ∧ q = false then false else topOK rest q) := rfl

theorem parse_go_cons (ch : Char) (rest cur : List Char) (q : Bool) :
    parse_go (ch :: rest) cur q =
      (if ch = '"' then parse_go rest (cur ++ [ch]) (!q)
       else if ch = ',' ∧ q = false then cur :: parse_go rest [] q
       else parse_go rest (cur ++ [ch]) q) := rfl

theorem topOK_append (a b : List Char) (q : Bool) :
    topOK (a ++ b) q = (topOK a q && topOK b (parQ a q)) := by
  induction a generalizing q with
  | nil => simp [topOK, parQ]
  | cons ch rest ih =>
    rw [List.cons_append, topOK_cons, topOK_cons, parQ_cons]
    by_cases h1 : ch = '"'
    · rw [if_pos h1, if_pos h1, if_pos h1, ih]
    · rw [if_neg h1, if_neg h1, if_neg h1]
      by_cases h2 : ch = ',' ∧ q = false
      · rw [if_pos h2, if_pos h2]
        simp
      · rw [if_neg h2, if_neg h2, ih]

theorem topOK_no_comma (s : List Char) (h : ',' ∉ s) (q : Bool) : topOK s q = true := by
  induction s generalizing q with
  | nil => rfl
  | cons ch rest ih =>
    have hch : ch ≠ ',' := by
      intro hc
      subst hc
      exact h (List.mem_cons_self _ _)
    have hrest : ',' ∉ rest := fun hc => h (List.mem_cons_of_mem _ hc)
    rw [topOK_cons]
    by_cases h1 : ch = '"'
    · rw [if_pos h1]
      exact ih hrest _
    · rw [if_neg h1, if_neg (fun hc => hch hc.1)]
      exact ih hrest q

/-- Scanning over a field with no top-level comma neither splits nor stops:
the field is moved into the accumulator and the parity advances. -/
theorem parse_go_pass (f : List Char) :
    ∀ (cs cur : List Char) (q : Bool), topOK f q = true →
      parse_go (f ++ cs) cur q = parse_go cs (cur ++ f) (parQ f q) := by
  induction f with
  | nil =>
    intro cs cur q _
    simp [parQ]
  | cons ch rest ih =>
    intro cs cur q hf
    rw [topOK_cons] at hf
    rw [List.cons_append, parse_go_cons, parQ_cons]
    by_cases h1 : ch = '"'
    · rw [if_pos h1] at hf ⊢
      rw [ih _ _ _ hf]
      simp [h1]
    · rw [if_neg h1] at hf ⊢
      by_cases h2 : ch = ',' ∧ q = false
      · rw [if_pos h2] at hf
        cases hf
      · rw [if_neg h2] at hf ⊢
        rw [ih _ _ _ hf]
        simp [h1]

/-- Scanning a comma at even parity splits off the accumulator. -/
theorem parse_go_comma (cs cur : List Char) :
    parse_go (',' :: cs) cur false = cur :: parse_go cs [] false := by
  rw [parse_go_cons, if_neg (by decide), if_pos ⟨rfl, rfl⟩]

theorem fieldsOK_cons_of_ne (a : List Char) {l : List (List Char)} (h : l ≠ []) :
    fieldsOK (a :: l) = (topOK a false && (!(parQ a false)) && fieldsOK l) := by
  cases l with
  | nil => exact absurd rfl h
  | cons b bs => rfl

/-- The field list produced by the CSV scanner is always well formed for
rejoining, provided the accumulator is (which `[]` is). -/
theorem parse_go_fieldsOK :
    ∀ (cs cur : List Char) (q : Bool), topOK cur false = true → parQ cur false = q →
      fieldsOK (parse_go cs cur q) = true := by
  intro cs
  induction cs with
  | nil =>
    intro cur q h1 _
    simpa [parse_go, fieldsOK] using h1
  | cons ch rest ih =>
    intro cur q h1 h2
    rw [parse_go_cons]
    by_cases hq : ch = '"'
    · rw [if_pos hq]
      apply ih
      · rw [topOK_append, h1, h2]
        simp [topOK, hq]
      · rw [parQ_append, h2]
        simp [parQ, hq]
    · by_cases hc : ch = ',' ∧ q = false
      · rw [if_neg hq, if_pos hc]
        cases hl' : parse_go rest [] q with
        | nil => exact absurd hl' (parse_go_ne_nil _ _ _)
        | cons f fs =>
          rw [fieldsOK_cons_of_ne _ (by simp)]
          have h3 : fieldsOK (parse_go rest [] q) = true := by
            apply ih
            · rfl
            · rw [hc.2]
              rfl
          rw [hl'] at h3
          rw [h1, h2, hc.2, h3]
          rfl
      · rw [if_neg hq, if_neg hc]
        apply ih
        · rw [topOK_append, h1, h2]
          simp only [Bool.true_and]
          rw [topOK_cons, if_neg hq, if_neg hc]
          rfl
        · rw [parQ_append, h2, parQ_cons, if_neg hq]
          rfl

/-- Rejoining a well-formed field list with commas and re-parsing recovers
the list. -/
theorem parse_go_joinC :
    ∀ (vs : List (List Char)), vs ≠ [] → fieldsOK vs = true →
      parse_go (joinC ',' vs) [] false = vs := by
  intro vs
  induction vs with
  | nil => intro h; exact absurd rfl h
  | cons f fs ih =>
    intro _ hok
    cases fs with
    | nil =>
      have hf : topOK f false = true := hok
      have := parse_go_pass f [] [] false hf
      simpa [joinC] using this
    | cons f2 fs2 =>
      rw [fieldsOK_cons_of_ne _ (by simp)] at hok
      simp only [Bool.and_eq_true, Bool.not_eq_true'] at hok
      obtain ⟨⟨h1, h2⟩, h3⟩ := hok
      have hjoin : joinC ',' (f :: f2 :: fs2) = f ++ ',' :: joinC ',' (f2 :: fs2) := rfl
      rw [hjoin, parse_go_pass f _ [] false h1, h2]
      rw [show ([] : List Char) ++ f = f from rfl, parse_go_comma]
      rw [ih (by simp) h3]

/-- Appending a comma-free, quote-free suffix to any one field keeps the
field list well formed for rejoining. -/
theorem fieldsOK_set (s : List Char) (hs1 : ',' ∉ s) (hs2 : '"' ∉ s) :
    ∀ (vs : List (List Char)) (i : Nat), fieldsOK vs = true →
      fieldsOK (vs.set i (vs.getD i [] ++ s)) = true := by
  intro vs
  induction vs with
  | nil =>
    intro i h
    simpa using h
  | cons f fs ih =>
    intro i hok
    cases i with
    | zero =>
      rw [List.set_cons_zero]
      rw [show (f :: fs).getD 0 [] = f from rfl]
      cases fs with
      | nil =>
        have h1 : topOK f false = true := hok
        show topOK (f ++ s) false = true
        rw [topOK_append, h1, topOK_no_comma s hs1]
        rfl
      | cons f2 fs2 =>
        rw [fieldsOK_cons_of_ne _ (by simp)] at hok ⊢
        simp only [Bool.and_eq_true, Bool.not_eq_true'] at hok ⊢
        obtain ⟨⟨h1, h2⟩, h3⟩ := hok
        refine ⟨⟨?_, ?_⟩, h3⟩
        · rw [topOK_append, h1, topOK_no_comma s hs1]
          rfl
        · rw [parQ_append, parQ_no_quote s hs2, h2]
    | succ j =>
      cases fs with
      | nil =>
        simpa using hok
      | cons f2 fs2 =>
        rw [List.set_cons_succ]
        rw [show (f :: f2 :: fs2).getD (j + 1) [] = (f2 :: fs2).getD j [] from rfl]
        rw [fieldsOK_cons_of_ne _ (by simp)] at hok
        have hne : (f2 :: fs2).set j ((f2 :: fs2).getD j [] ++ s) ≠ [] := by
          intro h0
          have := congrArg List.length h0
          simp at this
        rw [fieldsOK_cons_of_ne _ hne]
        simp only [Bool.and_eq_true, Bool.not_eq_true'] at hok ⊢
        obtain ⟨⟨h1, h2⟩, h3⟩ := hok
        exact ⟨⟨h1, h2⟩, ih j h3⟩

theorem splitChar_cons (sep c : Char) (rest : List Char) :
    splitChar sep (c :: rest) =
      (if c = sep then [] :: splitChar sep rest
       else
         match splitChar sep rest with
         | [] => [[c]]
         | f :: fs => (c :: f) :: fs) := rfl

theorem splitChar_ne_nil (sep : Char) (cs : List Char) : splitChar sep cs ≠ [] := by
  induction cs with
  | nil => simp [splitChar]
  | cons c rest ih =>
    rw [splitChar_cons]
    by_cases hc : c = sep
    · rw [if_pos hc]
      simp
    · rw [if_neg hc]
      cases h : splitChar sep rest with
      | nil => simp
      | cons f fs => simp

/-- No piece produced by the splitter contains the separator. -/
theorem splitChar_pieces (sep : Char) :
    ∀ (cs : List Char), ∀ p ∈ splitChar sep cs, sep ∉ p := by
  intro cs
  induction cs with
  | nil =>
    intro p hp
    simp [splitChar] at hp
    subst hp
    simp
  | cons c rest ih =>
    intro p hp
    rw [splitChar_cons] at hp
    by_cases hc : c = sep
    · rw [if_pos hc] at hp
      rcases List.mem_cons.mp hp with rfl | h
      · simp
      · exact ih p h
    · rw [if_neg hc] at hp
      cases hsp : splitChar sep rest with
      | nil => exact absurd hsp (splitChar_ne_nil sep rest)
      | cons f fs =>
        rw [hsp] at hp
        rcases List.mem_cons.mp hp with rfl | h
        · intro hmem
          rcases List.mem_cons.mp hmem with h1 | h1
          · exact hc h1.symm
          · exact ih f (by rw [hsp]; exact List.mem_cons_self f fs) h1
        · exact ih p (by rw [hsp]; exact List.mem_cons_of_mem _ h)

theorem splitChar_no_sep (sep : Char) (cs : List Char) (h : sep ∉ cs) :
    splitChar sep cs = [cs] := by
  induction cs with
  | nil => rfl
  | cons c rest ih =>
    have hc : c ≠ sep := by
      intro hc
      subst hc
      exact h (List.mem_cons_self _ _)
    rw [splitChar_cons, if_neg hc, ih (fun hm => h (List.mem_cons_of_mem _ hm))]

theorem splitChar_append_sep (sep : Char) :
    ∀ (p rest : List Char), sep ∉ p →
      splitChar sep (p ++ sep :: rest) = p :: splitChar sep rest := by
  intro p
  induction p with
  | nil =>
    intro rest _
    rw [List.nil_append, splitChar_cons, if_pos rfl]
  | cons c p' ih =>
    intro rest h
    have hc : c ≠ sep := by
      intro hc
      subst hc
      exact h (List.mem_cons_self _ _)
    rw [List.cons_append, splitChar_cons, if_neg hc,
      ih rest (fun hm => h (List.mem_cons_of_mem _ hm))]

/-- Splitting the separator-join of separator-free pieces recovers the
pieces. -/
theorem splitChar_joinC (sep : Char) :
    ∀ (ps : List (List Char)), ps ≠ [] → (∀ p ∈ ps, sep ∉ p) →
      splitChar sep (joinC sep ps) = ps := by
  intro ps
  induction ps with
  | nil => intro h; exact absurd rfl h
  | cons p ps' ih =>
    intro _ hall
    cases ps' with
    | nil => exact splitChar_no_sep sep p (hall p (List.mem_cons_self _ _))
    | cons p2 ps2 =>
      rw [show joinC sep (p :: p2 :: ps2) = p ++ sep :: joinC sep (p2 :: ps2) from rfl]
      rw [splitChar_append_sep sep p _ (hall p (List.mem_cons_self _ _))]
      rw [ih (by simp) (fun x hx => hall x (List.mem_cons_of_mem _ hx))]

theorem mem_joinC_of_mem (sep : Char) :
    ∀ (ps : List (List Char)) (f : List Char) (a : Char),
      f ∈ ps → a ∈ f → a ∈ joinC sep ps := by
  intro ps
  induction ps with
  | nil =>
    intro f a hf
    simp at hf
  | cons p ps' ih =>
    intro f a hf ha
    cases ps' with
    | nil =>
      rcases List.mem_cons.mp hf with rfl | h
      · exact ha
      · simp at h
    | cons p2 ps2 =>
      rw [show joinC sep (p :: p2 :: ps2) = p ++ sep :: joinC sep (p2 :: ps2) from rfl]
      rcases List.mem_cons.mp hf with rfl | h
      · exact List.mem_append_left _ ha
      · exact List.mem_append_right _ (List.mem_cons_of_mem _ (ih _ _ h ha))

theorem mem_of_mem_joinC (sep : Char) :
    ∀ (ps : List (List Char)) (a : Char),
      a ∈ joinC sep ps → a = sep ∨ ∃ f ∈ ps, a ∈ f := by
  intro ps
  induction ps with
  | nil =>
    intro a ha
    simp [joinC] at ha
  | cons p ps' ih =>
    intro a ha
    cases ps' with
    | nil =>
      exact Or.inr ⟨p, List.mem_cons_self _ _, ha⟩
    | cons p2 ps2 =>
      rw [show joinC sep (p :: p2 :: ps2) = p ++ sep :: joinC sep (p2 :: ps2) from rfl] at ha
      rcases List.mem_append.mp ha with h | h
      · exact Or.inr ⟨p, List.mem_cons_self _ _, h⟩
      · rcases List.mem_cons.mp h with rfl | h2
        · exact Or.inl rfl
        · rcases ih a h2 with h3 | ⟨f, hf, haf⟩
          · exact Or.inl h3
          · exact Or.inr ⟨f, List.mem_cons_of_mem _ hf, haf⟩

/-- Every character of every field produced by the scanner comes from the
accumulator or the scanned text. -/
theorem parse_go_chars :
    ∀ (cs cur : List Char) (q : Bool) (f : List Char) (a : Char),
      f ∈ parse_go cs cur q → a ∈ f → a ∈ cur ∨ a ∈ cs := by
  intro cs
  induction cs with
  | nil =>
    intro cur q f a hf ha
    simp [parse_go] at hf
    subst hf
    exact Or.inl ha
  | cons ch rest ih =>
    intro cur q f a hf ha
    rw [parse_go_cons] at hf
    by_cases h1 : ch = '"'
    · rw [if_pos h1] at hf
      rcases ih _ _ f a hf ha with h | h
      · rcases List.mem_append.mp h with h2 | h2
        · exact Or.inl h2
        · have h3 : a = ch := List.mem_singleton.mp h2
          subst h3
          exact Or.inr (List.mem_cons_self _ _)
      · exact Or.inr (List.mem_cons_of_mem _ h)
    · rw [if_neg h1] at hf
      by_cases h2 : ch = ',' ∧ q = false
      · rw [if_pos h2] at hf
        rcases List.mem_cons.mp hf with rfl | h3
        · exact Or.inl ha
        · rcases ih _ _ f a h3 ha with h | h
          · simp at h
          · exact Or.inr (List.mem_cons_of_mem _ h)
      · rw [if_neg h2] at hf
        rcases ih _ _ f a hf ha with h | h
        · rcases List.mem_append.mp h with h3 | h3
          · exact Or.inl h3
          · have h4 : a = ch := List.mem_singleton.mp h3
            subst h4
            exact Or.inr (List.mem_cons_self _ _)
        · exact Or.inr (List.mem_cons_of_mem _ h)

theorem mem_dropWhile_of_not {α : Type} (p : α → Bool) :
    ∀ (l : List α) (a : α), a ∈ l → p a = false → a ∈ l.dropWhile p := by
  intro l
  induction l with
  | nil =>
    intro a ha
    simp at ha
  | cons b rest ih =>
    intro a ha hpa
    rw [List.dropWhile_cons]
    rcases List.mem_cons.mp ha with rfl | h
    · rw [if_neg (by simp [hpa])]
      exact List.mem_cons_self _ _
    · by_cases hb : p b = true
      · rw [if_pos hb]
        exact ih a h hpa
      · rw [if_neg hb]
        exact List.mem_cons_of_mem _ h

/-- The stripped text is empty exactly when every character is whitespace. -/
theorem stripChars_eq_nil_iff (cs : List Char) :
    stripChars cs = [] ↔ ∀ a ∈ cs, a.isWhitespace = true := by
  unfold stripChars
  rw [List.reverse_eq_nil_iff, List.dropWhile_eq_nil_iff]
  constructor
  · intro h a ha
    by_cases hw : a.isWhitespace = true
    · exact hw
    · have hmem : a ∈ cs.dropWhile Char.isWhitespace :=
        mem_dropWhile_of_not _ cs a ha (by simpa using hw)
      exact absurd (h a (List.mem_reverse.mpr hmem)) (by simpa using hw)
  · intro h a ha
    exact h a ((List.dropWhile_sublist _).subset (List.mem_reverse.mp ha))

/-- Every sense string in the curated table is free of commas, quotes and
newlines. -/
theorem POLYSEMOUS_clean :
    ∀ kv ∈ POLYSEMOUS, ∀ m ∈ kv.2,
      ',' ∉ m.toList ∧ '"' ∉ m.toList ∧ '\n' ∉ m.toList := by
  decide

theorem tblLookup_mem (k : String) :
    ∀ (tbl : List (String × List String)) (ms : List String),
      tblLookup k tbl = some ms → (k, ms) ∈ tbl := by
  intro tbl
  induction tbl with
  | nil =>
    intro ms h
    cases h
  | cons kv rest ih =>
    intro ms h
    obtain ⟨k1, v⟩ := kv
    unfold tblLookup at h
    by_cases hk : k = k1
    · rw [if_pos hk] at h
      injection h with h
      subst hk
      subst h
      exact List.mem_cons_self _ _
    · rw [if_neg hk] at h
      exact List.mem_cons_of_mem _ (ih ms h)

theorem getD_map_mk (l : List (List Char)) (i : Nat) :
    (l.map String.mk).getD i "" = String.mk (l.getD i []) := by
  have := List.getD_map l [] (n := i) String.mk
  exact this

theorem map_toList_set (vs : List String) (i : Nat) (x : String) :
    (vs.set i x).map String.toList = (vs.map String.toList).set i x.toList :=
  List.map_set

theorem mk_append (a b : List Char) :
    String.mk (a ++ b) = String.mk a ++ String.mk b := rfl

theorem hasChar_iff (c : Char) (s : String) : hasChar c s = true ↔ c ∈ s.toList := by
  simp [hasChar, List.contains]

theorem getD_mem {α : Type} (l : List α) (i : Nat) (d : α) (h : i < l.length) :
    l.getD i d ∈ l := by
  rw [List.getD_eq_getElem?_getD, List.getElem?_eq_getElem h]
  exact List.getElem_mem h

theorem getD_set_ne {α : Type} (l : List α) (i j : Nat) (x d : α) (h : i ≠ j) :
    (l.set i x).getD j d = l.getD j d := by
  rw [List.getD_eq_getElem?_getD, List.getD_eq_getElem?_getD, List.getElem?_set_ne h]

theorem getD_set_self {α : Type} (l : List α) (i : Nat) (x d : α) (h : i < l.length) :
    (l.set i x).getD i d = x := by
  rw [List.getD_eq_getElem?_getD, List.getElem?_set_self h]
  rfl

theorem findIdx?_getElem {α : Type} (p : α → Bool) :
    ∀ (l : List α) (i : Nat), l.findIdx? p = some i →
      ∃ x, l[i]? = some x ∧ p x = true := by
  intro l
  induction l with
  | nil =>
    intro i h
    cases h
  | cons a rest ih =>
    intro i h
    rw [List.findIdx?_cons] at h
    by_cases hp : p a = true
    · rw [if_pos hp] at h
      injection h with h
      subst h
      exact ⟨a, by simp, hp⟩
    · rw [if_neg hp, List.findIdx?_succ] at h
      cases hr : rest.findIdx? p with
      | none =>
        rw [hr] at h
        cases h
      | some j =>
        rw [hr] at h
        simp at h
        subst h
        obtain ⟨x, hx, hpx⟩ := ih j hr
        exact ⟨x, by simpa using hx, hpx⟩

/-- The three required field positions taken from a header are pairwise
distinct where it matters: the gloss position differs from the text and
lemma positions (the fields at those positions are the distinct names `t`,
`g`, `l`). -/
theorem headerIdx_distinct (hdr : String) (t g l : Nat) (p : Option Nat)
    (hh : headerIdx hdr = some (t, g, l, p)) : t ≠ g ∧ l ≠ g := by
  unfold headerIdx at hh
  split at hh
  · cases hh
  · dsimp only at hh
    split at hh
    · rename_i t' g' l' heqt heqg heql
      simp only [Option.some.injEq, Prod.mk.injEq] at hh
      obtain ⟨rfl, rfl, rfl, -⟩ := hh
      obtain ⟨xt, hxt, hxtv⟩ := findIdx?_getElem _ _ _ heqt
      obtain ⟨xg, hxg, hxgv⟩ := findIdx?_getElem _ _ _ heqg
      obtain ⟨xl, hxl, hxlv⟩ := findIdx?_getElem _ _ _ heql
      simp only [beq_iff_eq] at hxtv hxgv hxlv
      subst hxtv
      subst hxgv
      subst hxlv
      constructor
      · intro he
        rw [he, hxg] at hxt
        exact absurd (Option.some.inj hxt) (by decide)
      · intro he
        rw [he, hxg] at hxl
        exact absurd (Option.some.inj hxl) (by decide)
    · cases hh

/-- The stripped string is empty exactly when the text is all whitespace. -/
theorem pyStrip_eq_empty_iff (s : String) :
    pyStrip s = "" ↔ ∀ a ∈ s.toList, a.isWhitespace = true := by
  rw [show ("" : String) = String.mk [] from rfl]
  unfold pyStrip
  rw [mk_eq_mk]
  exact stripChars_eq_nil_iff s.toList

/-- Re-parsing the comma-join of a parsed field list whose gloss field was
extended by a comma-free, quote-free suffix recovers the field list. -/
theorem parse_csv_set_append (line : String) (g : Nat) (s : List Char)
    (hs1 : ',' ∉ s) (hs2 : '"' ∉ s) :
    parse_csv (pyJoin ',' ((parse_csv line).set g
        ((parse_csv line).getD g "" ++ String.mk s))) =
      (parse_csv line).set g ((parse_csv line).getD g "" ++ String.mk s) := by
  have hmapset : (((parse_go line.toList [] false).map String.mk).set g
        ((((parse_go line.toList [] false).map String.mk).getD g "") ++ String.mk s)).map
          String.toList =
      (parse_go line.toList [] false).set g
        ((parse_go line.toList [] false).getD g [] ++ s) := by
    rw [map_toList_set, map_mk_toList, getD_map_mk, toList_append]
    rfl
  have hok : fieldsOK ((parse_go line.toList [] false).set g
      ((parse_go line.toList [] false).getD g [] ++ s)) = true :=
    fieldsOK_set s hs1 hs2 _ g (parse_go_fieldsOK line.toList [] false rfl rfl)
  have hne : (parse_go line.toList [] false).set g
      ((parse_go line.toList [] false).getD g [] ++ s) ≠ [] := by
    intro h0
    have := congrArg List.length h0
    rw [List.length_set] at this
    exact parse_go_ne_nil line.toList [] false (List.length_eq_zero.mp this)
  unfold parse_csv pyJoin
  rw [toList_mk, hmapset, parse_go_joinC _ hne hok, List.map_set, mk_append, getD_map_mk]

theorem append_pipe (gl : String) (x : List Char) :
    gl ++ "|" ++ String.mk x = gl ++ String.mk ('|' :: x) := by
  cases gl with
  | mk d =>
    rw [show (String.mk d ++ "|" ++ String.mk x) = String.mk ((d ++ ['|']) ++ x) from rfl]
    rw [show (String.mk d ++ String.mk ('|' :: x)) = String.mk (d ++ '|' :: x) from rfl]
    rw [mk_eq_mk, List.append_assoc]
    rfl

/-- A character other than the delimiter that occurs in no alternative does
not occur in the delimiter-joined suffix. -/
theorem suffix_clean (alts : List String) (c : Char) (hc : c ≠ '|')
    (hcl : ∀ a ∈ alts, c ∉ a.toList) :
    c ∉ '|' :: joinC '|' (alts.map String.toList) := by
  intro h
  rcases List.mem_cons.mp h with h1 | h2
  · exact hc h1
  · rcases mem_of_mem_joinC '|' _ c h2 with h3 | ⟨f, hf, hcf⟩
    · exact hc h3
    · obtain ⟨alt, halt, rfl⟩ := List.mem_map.mp hf
      exact hcl alt halt hcf

/-- Returning the input when no row was modified, shared by the round-trip
and idempotence results: whenever every row of the payload is emitted with a
false modification flag, `process_toon` returns its input string unchanged. -/
theorem process_toon_of_noRowModified (toon : String) (h : noRowModified toon = true) :
    process_toon toon = toon := by
  unfold process_toon
  unfold noRowModified at h
  split
  · rfl
  · dsimp only
    split
    · rfl
    · split
      · rfl
      · rename_i t_idx g_idx l_idx p_idx heq
        rw [heq] at h
        have hall : ((List.map (processLine t_idx g_idx l_idx p_idx)
            ((pySplit '\n' toon).drop 1)).any fun x => x.2) = false := by
          simp only [List.any_eq_false, List.mem_map]
          rintro x ⟨line, hline, rfl⟩
          simp only [List.all_eq_true] at h
          simpa using h line hline
        rw [hall]
        simp

/-- Every element selected by the filtering loop has a normalized form not
in the running `seen` set. -/
theorem selectAlts_norm_not_mem (ii ip : Bool) :
    ∀ (ms seen : List String) (a : String),
      a ∈ selectAlts ii ip seen ms → normalize a ∉ seen := by
  intro ms
  induction ms with
  | nil => intro seen a ha; simp [selectAlts] at ha
  | cons m ms ih =>
    intro seen a ha
    unfold selectAlts at ha
    split at ha
    · exact ih seen a ha
    · split at ha
      · exact ih seen a ha
      · split at ha
        · exact ih seen a ha
        · rename_i hseen _ _
          rcases List.mem_cons.mp ha with rfl | hrest
          · exact hseen
          · intro hmem
            exact ih _ a hrest (List.mem_cons_of_mem _ hmem)

/-- Every element selected by the filtering loop comes from the meanings
list. -/
theorem selectAlts_mem_table (ii ip : Bool) :
    ∀ (ms seen : List String) (a : String),
      a ∈ selectAlts ii ip seen ms → a ∈ ms := by
  intro ms
  induction ms with
  | nil => intro seen a ha; simp [selectAlts] at ha
  | cons m ms ih =>
    intro seen a ha
    unfold selectAlts at ha
    split at ha
    · exact List.mem_cons_of_mem _ (ih seen a ha)
    · split at ha
      · exact List.mem_cons_of_mem _ (ih seen a ha)
      · split at ha
        · exact List.mem_cons_of_mem _ (ih seen a ha)
        · rcases List.mem_cons.mp ha with rfl | hrest
          · exact List.mem_cons_self _ _
          · exact List.mem_cons_of_mem _ (ih _ a hrest)

/-- Every element selected by the filtering loop agrees with the current
gloss on both grammatical axes. -/
theorem selectAlts_classes (ii ip : Bool) :
    ∀ (ms seen : List String) (a : String),
      a ∈ selectAlts ii ip seen ms → glossIsInf a = ii ∧ glossIsPass a = ip := by
  intro ms
  induction ms with
  | nil => intro seen a ha; simp [selectAlts] at ha
  | cons m ms ih =>
    intro seen a ha
    unfold selectAlts at ha
    split at ha
    · exact ih seen a ha
    · split at ha
      · exact ih seen a ha
      · split at ha
        · exact ih seen a ha
        · rename_i hinf hpass
          rcases List.mem_cons.mp ha with rfl | hrest
          · exact ⟨not_ne_iff.mp hinf, not_ne_iff.mp hpass⟩
          · exact ih _ a hrest

/-- The selected alternatives are pairwise distinct by normalized form. -/
theorem selectAlts_pairwise (ii ip : Bool) :
    ∀ (ms seen : List String),
      (selectAlts ii ip seen ms).Pairwise (fun a b => normalize a ≠ normalize b) := by
  intro ms
  induction ms with
  | nil => intro seen; simp [selectAlts]
  | cons m ms ih =>
    intro seen
    unfold selectAlts
    split
    · exact ih seen
    · split
      · exact ih seen
      · split
        · exact ih seen
        · refine List.Pairwise.cons ?_ (ih _)
          intro b hb
          have := selectAlts_norm_not_mem ii ip ms _ b hb
          intro hmm
          apply this
          rw [← hmm]
          exact List.mem_cons_self _ _

/-- Every alternative returned by the selector is a sense from the looked-up
table entry. -/
theorem pick_alternatives_mem (lemm g a : String) (h : a ∈ pick_alternatives lemm g) :
    ∃ ms, tblLookup lemm POLYSEMOUS = some ms ∧ a ∈ ms := by
  unfold pick_alternatives at h
  split at h
  · simp at h
  · split at h
    · simp at h
    · rename_i ms heq
      split at h
      · simp at h
      · dsimp only at h
        split at h
        · simp at h
        · refine ⟨ms, heq, ?_⟩
          have hmem := ((List.perm_insertionSort lenLE _).mem_iff).mp
            (List.take_subset _ _ h)
          exact selectAlts_mem_table _ _ _ _ _ hmem

/-- Every alternative returned by the selector is free of commas, quotes and
newlines. -/
theorem pick_alternatives_clean (lemm g a : String) (h : a ∈ pick_alternatives lemm g) :
    ',' ∉ a.toList ∧ '"' ∉ a.toList ∧ '\n' ∉ a.toList := by
  obtain ⟨ms, hlk, hmem⟩ := pick_alternatives_mem lemm g a h
  exact POLYSEMOUS_clean (lemm, ms) (tblLookup_mem _ _ _ hlk) a hmem

/-- A row emitted with a false flag is emitted verbatim. -/
theorem processLine_false (t g l : Nat) (p : Option Nat) (line : String)
    (h : (processLine t g l p line).2 = false) :
    processLine t g l p line = (line, false) := by
  cases hpl : processLine t g l p line with
  | mk out flag =>
    rw [hpl] at h
    dsimp only at h
    subst h
    have hpl2 := hpl
    unfold processLine at hpl2
    split at hpl2
    · injection hpl2 with h1 h2
      subst h1
      rfl
    · split at hpl2
      · injection hpl2 with h1 h2
        subst h1
        rfl
      · split at hpl2
        · injection hpl2 with h1 h2
          subst h1
          rfl
        · split at hpl2
          · injection hpl2 with h1 h2
            subst h1
            rfl
          · split at hpl2
            · injection hpl2 with h1 h2
              subst h1
              rfl
            · injection hpl2 with h1 h2
              cases h2

/-- Assembly of the second run on a just-modified row: the row re-parses to
the same fields because the appended suffix is comma- and quote-free, the
text field (hence a non-whitespace character) is still present, and the `|`
now present in the gloss field guards the row off unchanged. -/
theorem processLine_out_false (t g l : Nat) (p : Option Nat) (line lemm : String)
    (htg : t ≠ g)
    (h2 : ¬((parse_csv line).length ≤ max t (max g l)))
    (htext : ¬(pyStrip ((parse_csv line).getD t "") = "")) :
    processLine t g l p
        (pyJoin ',' ((parse_csv line).set g ((parse_csv line).getD g "" ++ "|" ++
          pyJoin '|' (pick_alternatives lemm ((parse_csv line).getD g ""))))) =
      (pyJoin ',' ((parse_csv line).set g ((parse_csv line).getD g "" ++ "|" ++
        pyJoin '|' (pick_alternatives lemm ((parse_csv line).getD g "")))), false) := by
  set vs := parse_csv line with hvs
  set gloss := vs.getD g "" with hgloss
  set alts := pick_alternatives lemm gloss with halts
  set sfx := ('|' :: joinC '|' (alts.map String.toList)) with hsfx
  have hNG : gloss ++ "|" ++ pyJoin '|' alts = gloss ++ String.mk sfx :=
    append_pipe gloss (joinC '|' (alts.map String.toList))
  rw [hNG]
  have hclean : ∀ a ∈ alts, ',' ∉ a.toList ∧ '"' ∉ a.toList ∧ '\n' ∉ a.toList := by
    intro a ha
    exact pick_alternatives_clean lemm gloss a (by rw [← halts]; exact ha)
  have hsfx1 : ',' ∉ sfx := by
    rw [hsfx]
    exact suffix_clean alts ',' (by decide) (fun a ha => (hclean a ha).1)
  have hsfx2 : '"' ∉ sfx := by
    rw [hsfx]
    exact suffix_clean alts '"' (by decide) (fun a ha => (hclean a ha).2.1)
  have hA : parse_csv (pyJoin ',' (vs.set g (gloss ++ String.mk sfx))) =
      vs.set g (gloss ++ String.mk sfx) := by
    rw [hvs, hgloss]
    rw [hvs]
    exact parse_csv_set_append line g sfx hsfx1 hsfx2
  have hglt : g < vs.length := by
    have h2x := h2
    rw [Nat.not_le] at h2x
    have hle : g ≤ max t (max g l) := le_trans (Nat.le_max_left g l) (Nat.le_max_right t _)
    omega
  have htlt : t < vs.length := by
    have h2x := h2
    rw [Nat.not_le] at h2x
    have hle : t ≤ max t (max g l) := Nat.le_max_left t _
    omega
  have hstrip : ¬(pyStrip (pyJoin ',' (vs.set g (gloss ++ String.mk sfx))) = "") := by
    intro h0
    rw [pyStrip_eq_empty_iff] at h0
    have htext2 : stripChars (vs.getD t "").toList ≠ [] := by
      intro h1
      apply htext
      show String.mk _ = ""
      rw [mk_eq_empty]
      exact h1
    have hex : ∃ a ∈ (vs.getD t "").toList, ¬(a.isWhitespace = true) := by
      by_contra hall
      push_neg at hall
      refine htext2 ((stripChars_eq_nil_iff _).mpr ?_)
      intro a ha
      by_contra hna
      exact hna (hall a ha)
    obtain ⟨a, ha, hna⟩ := hex
    apply hna
    apply h0
    show a ∈ (String.mk (joinC ',' ((vs.set g (gloss ++ String.mk sfx)).map String.toList))).toList
    rw [toList_mk]
    have hfield : (vs.set g (gloss ++ String.mk sfx)).getD t "" = vs.getD t "" :=
      getD_set_ne vs g t _ "" (fun he => htg he.symm)
    apply mem_joinC_of_mem ',' _ ((vs.getD t "").toList) a
    · rw [← hfield]
      apply List.mem_map_of_mem String.toList
      apply getD_mem
      rw [List.length_set]
      exact htlt
    · exact ha
  have hlen2 : ¬((vs.set g (gloss ++ String.mk sfx)).length ≤ max t (max g l)) := by
    rw [List.length_set]
    exact h2
  have hpipe : hasChar '|' ((vs.set g (gloss ++ String.mk sfx)).getD g "") = true := by
    rw [getD_set_self vs g _ "" hglt]
    rw [hasChar_iff, toList_append, toList_mk]
    exact List.mem_append_right _ (List.mem_cons_self _ _)
  unfold processLine
  rw [hA, if_neg hstrip, if_neg hlen2, if_pos (Or.inr (Or.inl hpipe))]

/-- The heart of idempotence: running the row transformation on one of its
own output rows changes nothing. -/
theorem processLine_idem (t g l : Nat) (p : Option Nat) (line : String)
    (htg : t ≠ g) :
    processLine t g l p ((processLine t g l p line).1) =
      ((processLine t g l p line).1, false) := by
  by_cases hflag : (processLine t g l p line).2 = false
  · have h := processLine_false t g l p line hflag
    rw [h]
    exact h
  · cases hpl : processLine t g l p line with
    | mk out flag =>
      rw [hpl] at hflag
      dsimp only at hflag
      have hft : flag = true := by
        cases flag
        · exact absurd rfl hflag
        · rfl
      subst hft
      dsimp only
      have hpl2 := hpl
      unfold processLine at hpl2
      split at hpl2
      · injection hpl2 with h1 h2
        cases h2
      · split at hpl2
        · injection hpl2 with h1 h2
          cases h2
        · split at hpl2
          · injection hpl2 with h1 h2
            cases h2
          · split at hpl2
            · injection hpl2 with h1 h2
              cases h2
            · split at hpl2
              · injection hpl2 with h1 h2
                cases h2
              · rename_i h1 h2 h3 h4 h5
                injection hpl2 with hout hflag2
                subst hout
                push_neg at h3
                obtain ⟨-, -, htext, -⟩ := h3
                exact processLine_out_false t g l p line _ htg h2 htext

theorem map_mk_map_toList (L : List String) : (L.map String.toList).map String.mk = L := by
  rw [List.map_map]
  have h : (String.mk ∘ String.toList) = id := funext (fun s => mk_toList s)
  rw [h, List.map_id]

theorem headD_mem {α : Type} (l : List α) (d : α) (h : l ≠ []) : l.headD d ∈ l := by
  cases l with
  | nil => exact absurd rfl h
  | cons a t => exact List.mem_cons_self _ _

theorem pySplit_pieces (sep : Char) (s : String) :
    ∀ x ∈ pySplit sep s, sep ∉ x.toList := by
  intro x hx
  obtain ⟨piece, hpiece, rfl⟩ := List.mem_map.mp hx
  rw [toList_mk]
  exact splitChar_pieces sep s.toList piece hpiece

theorem pySplit_ne_nil (sep : Char) (s : String) : pySplit sep s ≠ [] := by
  intro h
  exact splitChar_ne_nil sep s.toList (List.map_eq_nil_iff.mp h)

/-- A row transformation never introduces a newline: the emitted line is
built from the original fields, commas, pipes and table senses. -/
theorem processLine_no_newline (t g l : Nat) (p : Option Nat) (line : String)
    (hline : '\n' ∉ line.toList) : '\n' ∉ (processLine t g l p line).1.toList := by
  by_cases hflag : (processLine t g l p line).2 = false
  · rw [processLine_false t g l p line hflag]
    exact hline
  · cases hpl : processLine t g l p line with
    | mk out flag =>
      dsimp only
      have hpl2 := hpl
      unfold processLine at hpl2
      split at hpl2
      · injection hpl2 with h1 h2
        subst h1
        exact hline
      · split at hpl2
        · injection hpl2 with h1 h2
          subst h1
          exact hline
        · split at hpl2
          · injection hpl2 with h1 h2
            subst h1
            exact hline
          · split at hpl2
            · injection hpl2 with h1 h2
              subst h1
              exact hline
            · split at hpl2
              · injection hpl2 with h1 h2
                subst h1
                exact hline
              · rename_i h1 h2 h3 h4 h5
                injection hpl2 with hout hflag2
                subst hout
                set vs := parse_csv line with hvs
                set gloss := vs.getD g "" with hgloss
                set lemm := lemmOf t l vs with hlemm
                set alts := pick_alternatives lemm gloss with halts
                have hglt : g < vs.length := by
                  have h2x := h2
                  rw [Nat.not_le] at h2x
                  have hle : g ≤ max t (max g l) :=
                    le_trans (Nat.le_max_left g l) (Nat.le_max_right t _)
                  omega
                have hvschars : ∀ v ∈ vs, ∀ a ∈ v.toList, a ∈ line.toList := by
                  intro v hv a ha
                  rw [hvs] at hv
                  obtain ⟨f, hf, rfl⟩ := List.mem_map.mp hv
                  rw [toList_mk] at ha
                  rcases parse_go_chars line.toList [] false f a hf ha with h0 | h0
                  · simp at h0
                  · exact h0
                have hclean : ∀ a ∈ alts, '\n' ∉ a.toList := by
                  intro a ha
                  exact (pick_alternatives_clean lemm gloss a (by rw [← halts]; exact ha)).2.2
                intro hmem
                rw [show (pyJoin ',' (vs.set g (gloss ++ "|" ++ pyJoin '|' alts))).toList =
                  joinC ',' ((vs.set g (gloss ++ "|" ++ pyJoin '|' alts)).map String.toList)
                  from rfl] at hmem
                rcases mem_of_mem_joinC ',' _ _ hmem with h0 | ⟨f, hf, haf⟩
                · cases h0
                · obtain ⟨v, hv, rfl⟩ := List.mem_map.mp hf
                  rcases List.mem_or_eq_of_mem_set hv with hv2 | rfl
                  · exact hline (hvschars v hv2 _ haf)
                  · rw [toList_append, toList_append] at haf
                    rcases List.mem_append.mp haf with h6 | h6
                    · rcases List.mem_append.mp h6 with h7 | h7
                      · exact hline (hvschars gloss (getD_mem vs g "" hglt) _ h7)
                      · cases List.mem_singleton.mp h7
                    · rcases mem_of_mem_joinC '|' _ _ h6 with h7 | ⟨f2, hf2, haf2⟩
                      · cases h7
                      · obtain ⟨alt, halt, rfl⟩ := List.mem_map.mp hf2
                        exact hclean alt halt haf2

/-- Case analysis of `process_toon`: either it returns its input, or the
header yields field positions, the payload has at least two lines, some row
was modified, and the result is the newline-join of the header and the
emitted rows. -/
theorem process_toon_cases (toon res : String) (h : process_toon toon = res) :
    res = toon ∨
      ∃ t g l p, headerIdx ((pySplit '\n' toon).headD "") = some (t, g, l, p) ∧
        ¬((pySplit '\n' toon).length < 2) ∧
        ((((pySplit '\n' toon).drop 1).map (processLine t g l p)).any fun x => x.2) = true ∧
        res = pyJoin '\n' (((pySplit '\n' toon).headD "") ::
          (((pySplit '\n' toon).drop 1).map (processLine t g l p)).map fun x => x.1) := by
  unfold process_toon at h
  split at h
  · exact Or.inl h.symm
  · dsimp only at h
    split at h
    · exact Or.inl h.symm
    · split at h
      · exact Or.inl h.symm
      · rename_i hlen hx t g l p hhdr
        split at h
        · rename_i hany
          exact Or.inr ⟨t, g, l, p, hhdr, hlen, hany, h.symm⟩
        · exact Or.inl h.symm

/-! ### Claim theorems -/

/-- C10: for every input string `line`, `parse_csv line` is a non-empty list
of fields whose comma-rejoin reconstructs `line` exactly — it splits only at
commas outside double quotes and preserves every other character, including
the quote characters themselves. -/
theorem C10_parse_csv_roundtrip (line : String) :
    parse_csv line ≠ [] ∧ pyJoin ',' (parse_csv line) = line := by
  constructor
  · unfold parse_csv
    intro h
    exact parse_go_ne_nil _ _ _ (List.map_eq_nil_iff.mp h)
  · show String.mk (joinC ','
      (((parse_go line.toList [] false).map String.mk).map String.toList)) = line
    rw [map_mk_toList, joinC_parse_go]
    rfl

/-- C9: evaluation of `normalize` at the failing input.  The claim (and the
spec) say the leading "to be " prefix is stripped, so that
`normalize ("to be " ++ X) = normalize X`; in the code the
`removeprefix("to be ")` call is dead (it runs after `removeprefix("to ")`
has already removed `to `, leaving a string starting with `be `), so
`normalize "to be seen"` is `"be seen"`, not `"seen"`.  The conjuncts also
record the parts of the claim the code does satisfy on these inputs. -/
theorem C9_normalize_to_be_eval :
    normalize "to be seen" = "be seen" ∧ normalize "seen" = "seen" ∧
      normalize "catches" = normalize "catch" ∧
      normalize "to catch" = normalize "catch" ∧
      normalize "to be seen" ≠ normalize "seen" := by
  decide

/-- C2 counterexample: on the row `canit,sings,canō,v` under header
`x\x7bt,g,l,p\x7d`, the pass does not produce the claimed gloss
`sings|sing|chant|recite` — the candidate "sing" is a normalized duplicate
of the correct sense "sings" and is filtered out. -/
theorem C2_counterexample :
    process_toon "x\x7bt,g,l,p\x7d\ncanit,sings,canō,v" ≠
      "x\x7bt,g,l,p\x7d\ncanit,sings|sing|chant|recite,canō,v" := by
  decide

/-- C2 amended: on the row `canit,sings,canō,v` under a header declaring
fields t,g,l,p, with the table entry for canō being
`["sing", "chant", "recite", "play (music)", "to sing"]`, the pass rewrites
the gloss field to exactly `sings|chant|recite|play (music)`: "to sing" is
excluded as infinitive-mismatched, "sing" is excluded as a normalized
duplicate of the correct sense, and the three surviving alternatives are
kept sorted by surface length ascending. -/
theorem C2_scenario_actual :
    process_toon "x\x7bt,g,l,p\x7d\ncanit,sings,canō,v" =
      "x\x7bt,g,l,p\x7d\ncanit,sings|chant|recite|play (music),canō,v" := by
  decide

/-- C3: for every payload in which no row receives alternatives (every line
after the header is emitted with a false modification flag), `process_toon`
returns a string equal to its input byte-for-byte, preserving the header
line and blank lines verbatim. -/
theorem C3_roundtrip_unmodified (toon : String) (h : noRowModified toon = true) :
    process_toon toon = toon :=
  process_toon_of_noRowModified toon h

/-- C1: for every lemma not in the skip-set and present in the lemma-to-senses
table, and every correct-sense string, `pick_alternatives` never includes the
correct sense nor any sense with the same normalized form, contains no two
elements with equal normalized form, is empty whenever fewer than `MIN_ALTS`
(2) distinct alternatives survive filtering, has at most `MAX_ALTS` (4)
elements sorted by surface string length ascending, and every element agrees
with the correct sense on the infinitive axis (lowercased surface begins
with "to ") and the passive axis (lowercased surface contains "is " or
"are "). -/
theorem C1_pick_alternatives_props (lemm correct : String) (ms : List String)
    (h1 : lemm ∉ SKIP_LEMMAS) (h2 : tblLookup lemm POLYSEMOUS = some ms) :
    correct ∉ pick_alternatives lemm correct ∧
    (∀ a ∈ pick_alternatives lemm correct, normalize a ≠ normalize correct) ∧
    (pick_alternatives lemm correct).Pairwise (fun a b => normalize a ≠ normalize b) ∧
    ((selectAlts (glossIsInf correct) (glossIsPass correct) [normalize correct] ms).length <
        MIN_ALTS → pick_alternatives lemm correct = []) ∧
    (pick_alternatives lemm correct).length ≤ MAX_ALTS ∧
    (pick_alternatives lemm correct).Sorted lenLE ∧
    (∀ a ∈ pick_alternatives lemm correct,
      glossIsInf a = glossIsInf correct ∧ glossIsPass a = glossIsPass correct) := by
  simp only [pick_alternatives, if_neg h1, h2]
  by_cases hms : ms = []
  · simp [hms]
  · simp only [if_neg hms]
    set alts := selectAlts (glossIsInf correct) (glossIsPass correct) [normalize correct] ms
      with halts
    by_cases hlen : alts.length < MIN_ALTS
    · simp [if_pos hlen]
    · simp only [if_neg hlen]
      have hmem : ∀ a, a ∈ (List.insertionSort lenLE alts).take MAX_ALTS → a ∈ alts := by
        intro a ha
        exact ((List.perm_insertionSort lenLE alts).mem_iff).mp (List.take_subset _ _ ha)
      have hnorm : ∀ a, a ∈ (List.insertionSort lenLE alts).take MAX_ALTS →
          normalize a ≠ normalize correct := by
        intro a ha
        have := selectAlts_norm_not_mem (glossIsInf correct) (glossIsPass correct) ms
          [normalize correct] a (halts ▸ hmem a ha)
        simpa using this
      refine ⟨?_, hnorm, ?_, ?_, ?_, ?_, ?_⟩
      · intro hc
        exact hnorm correct hc rfl
      · have hpair : alts.Pairwise (fun a b => normalize a ≠ normalize b) := by
          rw [halts]; exact selectAlts_pairwise _ _ _ _
        have := ((List.perm_insertionSort lenLE alts).pairwise_iff
          (fun h => Ne.symm h)).mpr hpair
        exact List.Pairwise.sublist (List.take_sublist _ _) this
      · intro h'
        exact absurd h' hlen
      · calc ((List.insertionSort lenLE alts).take MAX_ALTS).length
            = min MAX_ALTS (List.insertionSort lenLE alts).length := List.length_take _ _
          _ ≤ MAX_ALTS := Nat.min_le_left _ _
      · exact List.Pairwise.sublist (List.take_sublist _ _)
          (List.sorted_insertionSort lenLE alts)
      · intro a ha
        have := selectAlts_classes (glossIsInf correct) (glossIsPass correct) ms
          [normalize correct] a (halts ▸ hmem a ha)
        exact this

/-- C1 witness: the hypotheses hold at lemma `canō` with correct sense
`sings`, and the conclusion applies there. -/
theorem C1_witness :
    "canō" ∉ SKIP_LEMMAS ∧
      tblLookup "canō" POLYSEMOUS =
        some ["sing", "chant", "recite", "play (music)", "to sing"] ∧
      "sings" ∉ pick_alternatives "canō" "sings" ∧
      (pick_alternatives "canō" "sings").length ≤ MAX_ALTS :=
  ⟨by decide, by decide,
    (C1_pick_alternatives_props "canō" "sings"
      ["sing", "chant", "recite", "play (music)", "to sing"]
      (by decide) (by decide)).1,
    (C1_pick_alternatives_props "canō" "sings"
      ["sing", "chant", "recite", "play (music)", "to sing"]
      (by decide) (by decide)).2.2.2.2.1⟩

/-- C3 witness: a concrete well-formed payload (row `et,and,et,conj`,
excluded by part-of-speech) satisfying the hypothesis, on which
`process_toon` is the identity. -/
theorem C3_witness :
    noRowModified "x\x7bt,g,l,p\x7d\net,and,et,conj" = true ∧
      process_toon "x\x7bt,g,l,p\x7d\net,and,et,conj" =
        "x\x7bt,g,l,p\x7d\net,and,et,conj" :=
  ⟨by decide, C3_roundtrip_unmodified _ (by decide)⟩

/-- C4: idempotence of the alternative-generation pass — for every payload
string, running `process_toon` a second time on its own output produces no
further change: a row that received alternatives re-parses identically (the
appended suffix is comma- and quote-free) and is guarded off by the `|` now
present in its gloss, and untouched rows are reprocessed identically. -/
theorem C4_process_toon_idempotent (toon : String) :
    process_toon (process_toon toon) = process_toon toon := by
  rcases process_toon_cases toon (process_toon toon) rfl with
    h | ⟨t, g, l, p, hhdr, hlen, hany, hres⟩
  · rw [h]
    exact h
  · rw [hres]
    set hdr := (pySplit '\n' toon).headD "" with hhdrdef
    set tail := (pySplit '\n' toon).drop 1 with htaildef
    set outs := (tail.map (processLine t g l p)).map (fun x => x.1) with houtsdef
    have hdistinct := headerIdx_distinct _ t g l p hhdr
    have htail_nl : ∀ li ∈ tail, '\n' ∉ li.toList := by
      intro li hli
      apply pySplit_pieces '\n' toon
      rw [htaildef] at hli
      exact (List.drop_subset 1 _) hli
    have hhdr_nl : '\n' ∉ hdr.toList := by
      apply pySplit_pieces '\n' toon
      rw [hhdrdef]
      exact headD_mem _ _ (pySplit_ne_nil '\n' toon)
    have houts_nl : ∀ v ∈ outs, '\n' ∉ v.toList := by
      intro v hv
      rw [houtsdef] at hv
      obtain ⟨x, hx, rfl⟩ := List.mem_map.mp hv
      obtain ⟨li, hli, rfl⟩ := List.mem_map.mp hx
      exact processLine_no_newline t g l p li (htail_nl li hli)
    have hpieces : ∀ x ∈ (hdr :: outs).map String.toList, '\n' ∉ x := by
      intro x hx
      obtain ⟨v, hv, rfl⟩ := List.mem_map.mp hx
      rcases List.mem_cons.mp hv with rfl | hv2
      · exact hhdr_nl
      · exact houts_nl v hv2
    have hsplitjoin : pySplit '\n' (pyJoin '\n' (hdr :: outs)) = hdr :: outs := by
      unfold pySplit pyJoin
      rw [toList_mk, splitChar_joinC '\n' ((hdr :: outs).map String.toList) (by simp) hpieces,
        map_mk_map_toList]
    have hflags : ∀ li ∈ outs, processLine t g l p li = (li, false) := by
      intro li hli
      rw [houtsdef] at hli
      obtain ⟨x, hx, rfl⟩ := List.mem_map.mp hli
      obtain ⟨li0, hli0, rfl⟩ := List.mem_map.mp hx
      exact processLine_idem t g l p li0 hdistinct.1
    have hnrm : noRowModified (pyJoin '\n' (hdr :: outs)) = true := by
      unfold noRowModified
      rw [hsplitjoin]
      rw [show ((hdr :: outs).headD "") = hdr from rfl]
      rw [hhdr]
      dsimp only
      rw [show List.drop 1 (hdr :: outs) = outs from rfl]
      simp only [List.all_eq_true]
      intro li hli
      rw [hflags li hli]
      rfl
    exact process_toon_of_noRowModified _ hnrm

/-- C5 counterexample: on a payload whose row carries a quoted field with a
literal comma, the detector's naive comma split reports the truncated
headword `"a` instead of the quote-aware headword `"a,b"`, so
`get_poly_indices` disagrees with the schema-aware, quote-correct detector
the claim describes. -/
theorem C5_counterexample :
    get_poly_indices "x\x7bt,g,l\x7d\n\"a,b\",sees|see,videō" = [(0, "\"a", "sees")] ∧
      get_poly_indices_spec "x\x7bt,g,l\x7d\n\"a,b\",sees|see,videō" =
        [(0, "\"a,b\"", "sees")] ∧
      get_poly_indices "x\x7bt,g,l\x7d\n\"a,b\",sees|see,videō" ≠
        get_poly_indices_spec "x\x7bt,g,l\x7d\n\"a,b\",sees|see,videō" := by
  decide

/-- C5 amended: `get_poly_indices` maps row index (0-based over the lines
after the header, blank lines counted but skipped) to
(first naive comma field, first `|`-segment of the third naive comma field)
for exactly those non-blank lines that have more than two naive
comma-separated fields and whose third field contains `|`; the declared
header schema is not consulted and quoted commas are not honored. -/
theorem C5_get_poly_indices_naive (toon_str : String) (idx : Nat) (w c : String) :
    (idx, w, c) ∈ get_poly_indices toon_str ↔
      ∃ line, ((pySplit '\n' toon_str).drop 1)[idx]? = some line ∧
        ¬pyStrip line = "" ∧ 2 < (pySplit ',' line).length ∧
        hasChar '|' ((pySplit ',' line).getD 2 "") = true ∧
        w = (pySplit ',' line).getD 0 "" ∧
        c = (pySplit '|' ((pySplit ',' line).getD 2 "")).headD "" := by
  unfold get_poly_indices
  rw [List.mem_filterMap]
  constructor
  · rintro ⟨⟨i, line⟩, hmem, hf⟩
    rw [List.mk_mem_enum_iff_getElem?] at hmem
    dsimp only at hf
    split at hf
    · exact absurd hf (by simp)
    · split at hf
      · rename_i hstrip hcond
        simp only [Option.some.injEq, Prod.mk.injEq] at hf
        obtain ⟨rfl, rfl, rfl⟩ := hf
        exact ⟨line, hmem, hstrip, hcond.1, hcond.2, rfl, rfl⟩
      · exact absurd hf (by simp)
  · rintro ⟨line, hget, hstrip, hlen, hpipe, hw, hc⟩
    refine ⟨(idx, line), ?_, ?_⟩
    · rw [List.mk_mem_enum_iff_getElem?]
      exact hget
    · dsimp only
      rw [if_neg hstrip, if_pos ⟨hlen, hpipe⟩, hw, hc]

/-- C6 counterexample: a block whose type is not `"text"` (here `"image"`)
but which carries a payload with a polysemous row is modified by the
note-attachment pass, which never checks the block type. -/
theorem C6_counterexample :
    (⟨some "image", none, some "h\ncapiunt,x,catch|seize", []⟩ : Block).type ≠
        some "text" ∧
      notesBlock ⟨some "image", none, some "h\ncapiunt,x,catch|seize", []⟩ ≠
        ⟨some "image", none, some "h\ncapiunt,x,catch|seize", []⟩ := by
  decide

/-- C6 amended: the alternative-generation pass modifies only blocks of type
`"text"` whose style is not `"grammar-table"`; blocks styled
`"grammar-table"` are left entirely unchanged by both passes even if their
payload contains `|`; and the note-attachment pass leaves blocks with a
missing or empty payload unchanged — but it performs no type check, so a
non-text block with a payload may still be modified by it. -/
theorem C6_eligibility (b : Block) :
    (b.type ≠ some "text" → annotateBlock b = b) ∧
      (b.style = some "grammar-table" → annotateBlock b = b ∧ notesBlock b = b) ∧
      (b.toon = none ∨ b.toon = some "" → notesBlock b = b) := by
  obtain ⟨ty, st, tn, gn⟩ := b
  refine ⟨?_, ?_, ?_⟩
  · intro h
    simp only [annotateBlock, if_pos h]
  · intro h
    simp only at h
    subst h
    constructor
    · cases tn with
      | none => simp [annotateBlock, ite_self]
      | some t => simp [annotateBlock, ite_self]
    · cases tn with
      | none => rfl
      | some t => simp [notesBlock, ite_self]
  · intro h
    simp only at h
    rcases h with rfl | rfl
    · rfl
    · simp [notesBlock]

/-- C6 witness: concrete blocks exercising each amended conjunct — a
non-text block untouched by the alternative pass, a grammar-table block
(payload containing `|`) untouched by both passes, and a payload-free block
untouched by the note pass. -/
theorem C6_witness :
    annotateBlock ⟨some "image", none, some "p", []⟩ =
        ⟨some "image", none, some "p", []⟩ ∧
      (annotateBlock ⟨some "text", some "grammar-table", some "am|ō", []⟩ =
          ⟨some "text", some "grammar-table", some "am|ō", []⟩ ∧
        notesBlock ⟨some "text", some "grammar-table", some "am|ō", []⟩ =
          ⟨some "text", some "grammar-table", some "am|ō", []⟩) ∧
      notesBlock ⟨some "text", none, none, []⟩ = ⟨some "text", none, none, []⟩ :=
  ⟨(C6_eligibility _).1 (by decide), (C6_eligibility _).2.1 (by decide),
    (C6_eligibility _).2.2 (Or.inl rfl)⟩

/-- C7 counterexample: a block with a pre-existing note for row 5 loses that
entry when the run matches row 0 — the pass overwrites the whole `glossNotes`
mapping with the newly collected notes, although row 5 was not re-matched. -/
theorem C7_counterexample :
    get_poly_indices "h\ncapiunt,x,catch|seize" = [(0, "capiunt", "catch")] ∧
      List.lookup "5"
          (Block.glossNotes
            ⟨some "text", none, some "h\ncapiunt,x,catch|seize", [("5", "old")]⟩) =
        some "old" ∧
      List.lookup "5"
          (Block.glossNotes
            (notesBlock
              ⟨some "text", none, some "h\ncapiunt,x,catch|seize", [("5", "old")]⟩)) =
        none := by
  decide

/-- C7 amended: for an eligible block, when the note-attachment run matches
no row of the block, the whole block (its pre-existing `glossNotes`
included) is left untouched; when it matches at least one row, the block's
entire note mapping is replaced by the newly matched notes, so pre-existing
entries for rows not re-matched in that run are dropped. -/
theorem C7_notes_replacement (b : Block) (t : String) (hb : b.toon = some t)
    (ht : t ≠ "") (hs : b.style ≠ some "grammar-table") :
    ((get_poly_indices t).filterMap (fun p =>
        (noteLookup (p.2.1, p.2.2) EXPLANATIONS).map fun note => (toString p.1, note)) =
          [] → notesBlock b = b) ∧
      ((get_poly_indices t).filterMap (fun p =>
        (noteLookup (p.2.1, p.2.2) EXPLANATIONS).map fun note => (toString p.1, note)) ≠
          [] → (notesBlock b).glossNotes = (get_poly_indices t).filterMap fun p =>
            (noteLookup (p.2.1, p.2.2) EXPLANATIONS).map fun note => (toString p.1, note)) := by
  obtain ⟨ty, st, tn, gn⟩ := b
  simp only at hb hs
  subst hb
  constructor
  · intro hnotes
    simp only [notesBlock]
    rw [if_neg ht, if_neg hs]
    rw [hnotes]
    simp [ite_self]
  · intro hnotes
    simp only [notesBlock]
    rw [if_neg ht, if_neg hs]
    have hpolys : get_poly_indices t ≠ [] := by
      intro h0
      rw [h0] at hnotes
      simp at hnotes
    rw [if_neg hpolys, if_pos hnotes]

/-- C7 witness: the amended behaviour at the counterexample block — the run
matches row 0, so the note mapping is wholesale-replaced by the matched
note. -/
theorem C7_witness :
    (⟨some "text", none, some "h\ncapiunt,x,catch|seize", [("5", "old")]⟩ : Block).toon =
        some "h\ncapiunt,x,catch|seize" ∧
      (notesBlock
          ⟨some "text", none, some "h\ncapiunt,x,catch|seize", [("5", "old")]⟩).glossNotes =
        [("0", "Predators hunting prey — they catch other animals")] :=
  ⟨rfl, by
    rw [(C7_notes_replacement
      ⟨some "text", none, some "h\ncapiunt,x,catch|seize", [("5", "old")]⟩
      "h\ncapiunt,x,catch|seize" rfl (by decide) (by decide)).2 (by decide)]
    decide⟩

/-- C8 counterexample: a document containing a block whose header lacks the
declared field `g` (schema mismatch) does not make the run fail — the
mismatched block is silently passed through unchanged while the other block
is annotated and the (changed) document proceeds to the write. -/
theorem C8_counterexample :
    process_toon "x\x7bt,l,p\x7d\ncanit,canō,v" = "x\x7bt,l,p\x7d\ncanit,canō,v" ∧
      annotateChapter
          [[⟨some "text", none, some "x\x7bt,l,p\x7d\ncanit,canō,v", []⟩,
            ⟨some "text", none, some "x\x7bt,g,l,p\x7d\ncanit,sings,canō,v", []⟩]] =
        [[⟨some "text", none, some "x\x7bt,l,p\x7d\ncanit,canō,v", []⟩,
          ⟨some "text", none,
            some "x\x7bt,g,l,p\x7d\ncanit,sings|chant|recite|play (music),canō,v", []⟩]] ∧
      annotateChapter
          [[⟨some "text", none, some "x\x7bt,l,p\x7d\ncanit,canō,v", []⟩,
            ⟨some "text", none, some "x\x7bt,g,l,p\x7d\ncanit,sings,canō,v", []⟩]] ≠
        [[⟨some "text", none, some "x\x7bt,l,p\x7d\ncanit,canō,v", []⟩,
          ⟨some "text", none, some "x\x7bt,g,l,p\x7d\ncanit,sings,canō,v", []⟩]] := by
  decide

/-- C8 amended: a schema mismatch (the block's header yields no field
positions, by failing the brace regex or lacking a declared field `t`, `g`
or `l`) is not an input error: `process_toon` returns such a payload
unchanged and the run continues over the remaining blocks. -/
theorem C8_schema_mismatch_tolerated (toon : String)
    (h : headerIdx ((pySplit '\n' toon).headD "") = none) :
    process_toon toon = toon := by
  unfold process_toon
  split
  · rfl
  · dsimp only
    split
    · rfl
    · split
      · rfl
      · rename_i heq
        rw [h] at heq
        cases heq

/-- C8 witness: the schema-mismatched payload of the counterexample
satisfies the hypothesis and is passed through unchanged. -/
theorem C8_witness :
    headerIdx ((pySplit '\n' "x\x7bt,l,p\x7d\ncanit,canō,v").headD "") = none ∧
      process_toon "x\x7bt,l,p\x7d\ncanit,canō,v" = "x\x7bt,l,p\x7d\ncanit,canō,v" :=
  ⟨by decide, C8_schema_mismatch_tolerated _ (by decide)⟩

end Pensvm
